import Mathlib

/-!
Verification of the VM-fleet orchestration core of the snail test harness.

The development shallowly embeds the two Python source files:

* `src/harness.py` — fleet listing (`get_vm_list` and its `sort_key`),
  per-VM discovery (`get_vm_info`, `get_all_vm_info`), the `stop` batch
  operation, the `shutdown --wait` polling loop, and the `list-versions`
  Ubuntu version sort (`ubuntu_sort_key`);
* `src/ansible/inventory.py` — the dynamic-inventory script
  (`get_vm_list`, `get_vm_ip`, `get_vm_state`, `build_inventory`,
  `get_host_vars`).

The hypervisor (virsh) is modelled as an oracle (`Hyp`) giving, for every
query, the raw stdout text and the process return code.  Python strings are
modelled as Lean `String` / `List Char`; `\d` in the IPv4 regular
expression, `str.isdigit`, `str.strip` and `int()` are modelled over ASCII
(the unicode-digit and unicode-whitespace acceptance of CPython never
matters for names and outputs considered here).  Python's stable sort
(`sorted(..., key=k, reverse=True)`) is modelled by a stable insertion
sort with the descending boolean comparator; for a total transitive
comparator a stable sort is unique, so the model computes the same list
as CPython's stable sort.
-/

/-! ### Python string primitives -/

/-- Python whitespace for `str.strip()`, restricted to ASCII. -/
def isPyWS (c : Char) : Bool :=
  c == ' ' || c == '\t' || c == '\n' || c == '\r' || c == '\x0b' || c == '\x0c'

/-- Model of Python `str.strip()` on the character list. -/
def stripWS (cs : List Char) : List Char :=
  ((cs.dropWhile isPyWS).reverse.dropWhile isPyWS).reverse

/-- Model of Python `str.strip()`. -/
def pyStrip (s : String) : String := String.mk (stripWS s.data)

/-- Model of Python `str.split(sep)` for a one-character separator:
splits on every occurrence, keeping empty chunks, never returning `[]`. -/
def splitCh (sep : Char) : List Char → List (List Char)
  | [] => [[]]
  | c :: cs =>
    if c = sep then [] :: splitCh sep cs
    else (c :: (splitCh sep cs).headD []) :: (splitCh sep cs).tail

/-- Lines of a Python `s.split("\n")`. -/
def splitLines (s : String) : List String := (splitCh '\n' s.data).map String.mk

/-- Value of a decimal digit character. -/
def digitVal (c : Char) : Nat := c.toNat - 48

/-- Numeric value of a digit string (most significant digit first). -/
def digitsVal (cs : List Char) : Nat := cs.foldl (fun a c => a * 10 + digitVal c) 0

/-- Digit part of Python `int(str)` after the optional sign: a nonempty
digit sequence with single underscores allowed between digits. -/
def digitsCore (acc : Nat) : List Char → Option Nat
  | [] => some acc
  | c :: cs =>
    if c.isDigit then digitsCore (acc * 10 + digitVal c) cs
    else if c = '_' then
      match cs with
      | c2 :: cs2 => if c2.isDigit then digitsCore (acc * 10 + digitVal c2) cs2 else none
      | [] => none
    else none

/-- Digit sequence that must start with a digit (no sign). -/
def startDigits : List Char → Option Nat
  | [] => none
  | c :: cs => if c.isDigit then digitsCore (digitVal c) cs else none

/-- Sign handling of Python `int(str)` after whitespace stripping. -/
def pyIntSigned : List Char → Option Int
  | [] => none
  | c :: rest =>
    if c = '+' then (startDigits rest).map (fun n => (n : Int))
    else if c = '-' then (startDigits rest).map (fun n => -(n : Int))
    else (startDigits (c :: rest)).map (fun n => (n : Int))

/-- Model of Python `int(str)`: strip whitespace, optional sign, decimal
digits (`none` models the `ValueError`). -/
def pyInt (cs : List Char) : Option Int := pyIntSigned (stripWS cs)

/-- The `int(version)`-with-`ValueError`-fallback used by `sort_key`
(`version_num = int(version)` / `except ValueError: version_num = 0`). -/
def pyIntOr0 (cs : List Char) : Int :=
  match pyInt cs with
  | some v => v
  | none => 0

/-- Model of Python `str.isdigit()` (ASCII digits). -/
def pyIsDigitStr (cs : List Char) : Bool := !cs.isEmpty && cs.all Char.isDigit

/-! ### Ordering machinery: Python tuple comparison and stable sort -/

/-- Lexicographic comparison of strings by character code point, as Python
compares `str` values. -/
def charListCmp : List Char → List Char → Ordering
  | [], [] => .eq
  | [], _ :: _ => .lt
  | _ :: _, [] => .gt
  | a :: as, b :: bs =>
    if a < b then .lt else if b < a then .gt else charListCmp as bs

/-- Comparison of Python ints. -/
def intCmp (a b : Int) : Ordering :=
  if a < b then .lt else if b < a then .gt else .eq

/-- Key produced by `harness.get_vm_list.sort_key`: `(distro, version_num,
number)`, compared as a Python tuple. -/
abbrev SortKey := String × Int × Int

/-- Python tuple comparison on `sort_key` tuples: lexicographic on
`(distro, version_num, number)`. -/
def keyCmp (x y : SortKey) : Ordering :=
  match charListCmp x.1.data y.1.data with
  | .eq =>
    match intCmp x.2.1 y.2.1 with
    | .eq => intCmp x.2.2 y.2.2
    | o => o
  | o => o

/-- Python `<=` on `sort_key` tuples. -/
def keyLe (x y : SortKey) : Bool :=
  match keyCmp x y with
  | .gt => false
  | _ => true

/-- Key produced by `inventory.get_vm_list.sort_key`: `(version, number)`. -/
abbrev InvKey := Int × Int

/-- Python tuple comparison on inventory `sort_key` tuples. -/
def invKeyCmp (x y : InvKey) : Ordering :=
  match intCmp x.1 y.1 with
  | .eq => intCmp x.2 y.2
  | o => o

/-- Python `<=` on inventory `sort_key` tuples. -/
def invKeyLe (x y : InvKey) : Bool :=
  match invKeyCmp x y with
  | .gt => false
  | _ => true

/-- Insert an element into a sorted list, before the first element it
compares `le` to (so an element equal under `le` stays after earlier
original elements: stability). -/
def insertSorted (le : α → α → Bool) (x : α) : List α → List α
  | [] => [x]
  | y :: ys => if le x y then x :: y :: ys else y :: insertSorted le x ys

/-- Stable sort modelling Python `sorted(xs, key=..., reverse=...)`:
`le` is the (possibly reversed) boolean comparator on elements. -/
def stableSort (le : α → α → Bool) : List α → List α
  | [] => []
  | x :: xs => insertSorted le x (stableSort le xs)

/-! ### The hypervisor oracle -/

/-- Result of one external process invocation: raw stdout and return code.
Timeouts and exceptions are represented by a nonzero return code, as both
`run_command` wrappers map them. -/
abbrev ProcRes := String × Int

/-- Hypervisor oracle: what `virsh` answers to each query.  `listOut` is
`virsh list --all --name`; `domstate name` is `virsh domstate name`;
`domifaddr name` is `virsh domifaddr name`; `virshCmd c name` is a
mutating `virsh c name` (start/shutdown/destroy). -/
structure Hyp where
  listOut : ProcRes
  domstate : String → ProcRes
  domifaddr : String → ProcRes
  virshCmd : String → String → ProcRes

/-! ### IPv4 extraction: `re.search(r'(\d{1,3}\.\d{1,3}\.\d{1,3}\.\d{1,3})', out)` -/

/-- Take exactly `n` digits from the front. -/
def takeDigitsN : Nat → List Char → Option (List Char × List Char)
  | 0, cs => some ([], cs)
  | _ + 1, [] => none
  | n + 1, c :: cs =>
    if c.isDigit then (takeDigitsN n cs).map (fun p => (c :: p.1, p.2)) else none

/-- Match exactly `k` digits followed by a literal dot. -/
def octetDot (cs : List Char) (k : Nat) : Option (List Char × List Char) :=
  match takeDigitsN k cs with
  | some (ds, rest) =>
    match rest with
    | '.' :: rest2 => some (ds ++ ['.'], rest2)
    | _ => none
  | none => none

/-- Greedy `\d{1,3}\.` with backtracking: try three digits, then two,
then one (after `k` digits the next char must be the literal dot, so at
most one `k` can succeed and no cross-group backtracking is possible). -/
def octetDotBT (cs : List Char) : Option (List Char × List Char) :=
  match octetDot cs 3 with
  | some r => some r
  | none =>
    match octetDot cs 2 with
    | some r => some r
    | none => octetDot cs 1

/-- Greedy final `\d{1,3}` (no following constraint): longest first. -/
def lastOctet (cs : List Char) : Option (List Char × List Char) :=
  match takeDigitsN 3 cs with
  | some r => some r
  | none =>
    match takeDigitsN 2 cs with
    | some r => some r
    | none => takeDigitsN 1 cs

/-- Match the whole IPv4 pattern anchored at the current position,
returning the matched characters. -/
def matchIPv4At (cs : List Char) : Option (List Char) :=
  match octetDotBT cs with
  | none => none
  | some (g1, r1) =>
    match octetDotBT r1 with
    | none => none
    | some (g2, r2) =>
      match octetDotBT r2 with
      | none => none
      | some (g3, r3) =>
        match lastOctet r3 with
        | none => none
        | some (g4, _) => some (g1 ++ g2 ++ g3 ++ g4)

/-- Model of `re.search`: leftmost match wins. -/
def searchIPv4 : List Char → Option (List Char)
  | [] => none
  | c :: cs =>
    match matchIPv4At (c :: cs) with
    | some m => some m
    | none => searchIPv4 cs

/-- First IPv4-looking token of a free-form text, as both source files
extract it. -/
def findIPv4 (s : String) : Option String := (searchIPv4 s.data).map String.mk

/-! ### src/harness.py -/

/-- Filter of `get_vm_list` (both files): the line starts with the prefix
and the remainder contains a `-`. -/
def vmLineMatches (pfx : String) (line : String) : Bool :=
  pfx.data.isPrefixOf line.data && (line.data.drop pfx.data.length).contains '-'

/-- Embedding of `harness.get_vm_list.sort_key` (src/harness.py lines 153-177).
`parts = vm_name.split("-")`; with at least 4 parts the new format
`(parts[-3], int(parts[-2]) or 0, int(parts[-1]))`, with exactly 3 parts
the legacy format `("fedora", int(parts[-2]), int(parts[-1]))`, and
`("", 0, 0)` whenever an `int()` raises or there are fewer parts. -/
def sortKeyH (name : String) : SortKey :=
  match (splitCh '-' name.data).reverse with
  | number :: version :: distro :: _ :: _ =>
    match pyInt number with
    | some n => (String.mk distro, pyIntOr0 version, n)
    | none => ("", 0, 0)
  | [number, version, _] =>
    match pyInt version, pyInt number with
    | some v, some n => ("fedora", v, n)
    | _, _ => ("", 0, 0)
  | _ => ("", 0, 0)

/-- The filtered (unsorted) lines of `harness.get_vm_list`: stdout is
stripped, split into lines, each line stripped, then filtered. -/
def harnessSurvivors (pfx : String) (w : Hyp) : List String :=
  ((splitLines (pyStrip w.listOut.1)).map pyStrip).filter (vmLineMatches pfx)

/-- Embedding of `harness.get_vm_list` (src/harness.py lines 131-179): empty on a
failing listing, else the survivors sorted descending by `sort_key`. -/
def getVmListH (pfx : String) (w : Hyp) : List String :=
  if w.listOut.2 ≠ 0 then []
  else stableSort (fun a b => keyLe (sortKeyH b) (sortKeyH a)) (harnessSurvivors pfx w)

/-- Embedding of `harness.VMInfo` (the `snail_status` field is a constant default and
is not modelled). -/
structure VMInfo where
  name : String
  ip : Option String
  state : String
deriving DecidableEq

/-- Embedding of `harness.get_vm_info` (src/harness.py lines 182-205): state is the
stripped `domstate` stdout, or `"unknown"` on a nonzero return code; the
address is looked up only in the `running` state, by pattern-matching the
raw `domifaddr` stdout. -/
def getVmInfoH (w : Hyp) (vm : String) : VMInfo :=
  let stRes := w.domstate vm
  let state := if stRes.2 = 0 then pyStrip stRes.1 else "unknown"
  let ip :=
    if state = "running" then
      let ipRes := w.domifaddr vm
      if ipRes.2 = 0 then findIPv4 ipRes.1 else none
    else none
  ⟨vm, ip, state⟩

/-- Embedding of `harness.get_all_vm_info` (src/harness.py lines 208-211). -/
def getAllVmInfoH (pfx : String) (w : Hyp) : List VMInfo :=
  (getVmListH pfx w).map (getVmInfoH w)

/-- Selection of the `stop` command: an explicit `--vm` name, or the whole
fleet. -/
def stopSelection (pfx : String) (w : Hyp) (vmOpt : Option String) : List String :=
  match vmOpt with
  | some v => [v]
  | none => getVmListH pfx w

/-- Embedding of `harness.stop` (src/harness.py lines 615-639), modelled by its
observable behaviour: the sequence of issued `virsh` calls (with the
return code each received; `check=False`, so no result aborts the loop)
and the printed messages (progress descriptions and the final success
banner; rich markup elided).  The results of the calls are never
inspected. -/
def stopH (pfx : String) (w : Hyp) (vmOpt : Option String) (force : Bool) :
    List (String × String × Int) × List String :=
  let vms := stopSelection pfx w vmOpt
  let cmd := if force then "destroy" else "shutdown"
  let calls := vms.map (fun v => (cmd, v, (w.virshCmd cmd v).2))
  let msgs := ("Stopping " ++ toString vms.length ++ " VMs...")
      :: (vms.map (fun v => "Stopping " ++ v ++ "...")) ++ ["VMs stopped"]
  (calls, msgs)

/-- The per-round "all VMs shut down" test of `harness.shutdown`'s wait
loop: every selected VM's state is `"shut off"` or `"shutdown"`. -/
def allShutAt (w : Hyp) (vms : List String) : Bool :=
  vms.all (fun v => (getVmInfoH w v).state == "shut off" || (getVmInfoH w v).state == "shutdown")

/-- The `--wait` polling loop of `harness.shutdown` (src/harness.py lines
682-694): `while elapsed < 60`, poll, break when all are shut, else sleep
2 seconds and add 2 to `elapsed`.  `ws t` is the hypervisor state at
elapsed time `t`.  Returns the final `elapsed`. -/
def shutdownWaitLoop (ws : Nat → Hyp) (vms : List String) (elapsed : Nat) : Nat :=
  if elapsed < 60 then
    if allShutAt (ws elapsed) vms then elapsed
    else shutdownWaitLoop ws vms (elapsed + 2)
  else elapsed
termination_by 60 - elapsed
decreasing_by omega

/-- The wait phase of `harness.shutdown --wait`: final `elapsed`, and
whether the incomplete-shutdown warning (`elapsed >= max_wait`, line 696)
is printed. -/
def shutdownWaitH (ws : Nat → Hyp) (vms : List String) : Nat × Bool :=
  let e := shutdownWaitLoop ws vms 0
  (e, decide (60 ≤ e))

/-- Embedding of `harness.list_versions.ubuntu_sort_key` (src/harness.py lines
782-788) on a string key: dotted two-part numeric versions sort as
`major*100+minor`, everything else as 0. -/
def ubuntuSortKey (version : String) : Int :=
  if version.data.contains '.' then
    match splitCh '.' version.data with
    | [p0, p1] =>
      if pyIsDigitStr p0 && pyIsDigitStr p1 then
        (pyInt p0).getD 0 * 100 + (pyInt p1).getD 0
      else 0
    | _ => 0
  else 0

/-- The hard-coded fallback of `config.get("vms", {}).get
("default_distribution", "fedora")` in src/harness.py line 242. -/
def defaultDistroFallback : String := "fedora"

/-! ### src/ansible/inventory.py -/

/-- Constant `VM_PREFIX` of src/ansible/inventory.py. -/
def vmPfx : String := "snail-test"

/-- Embedding of `inventory.run_command`: it returns the already-stripped stdout together
with the return code. -/
def invRun (res : ProcRes) : ProcRes := (pyStrip res.1, res.2)

/-- Embedding of `inventory.get_vm_list.sort_key` (src/ansible/inventory.py lines
51-60): `(int(parts[-2]), int(parts[-1]))` with at least 3 parts, and
`(0, 0)` otherwise or on `ValueError`. -/
def invSortKey (name : String) : InvKey :=
  match (splitCh '-' name.data).reverse with
  | number :: version :: _ :: _ =>
    match pyInt version, pyInt number with
    | some v, some n => (v, n)
    | _, _ => (0, 0)
  | _ => (0, 0)

/-- The filtered (unsorted) lines of `inventory.get_vm_list`. -/
def invSurvivors (w : Hyp) : List String :=
  ((splitLines (invRun w.listOut).1).map pyStrip).filter (vmLineMatches vmPfx)

/-- Embedding of `inventory.get_vm_list` (src/ansible/inventory.py lines 37-62). -/
def invGetVmList (w : Hyp) : List String :=
  if (invRun w.listOut).2 ≠ 0 then []
  else stableSort (fun a b => invKeyLe (invSortKey b) (invSortKey a)) (invSurvivors w)

/-- Embedding of `inventory.get_vm_ip` (src/ansible/inventory.py lines 65-76). -/
def invGetVmIp (w : Hyp) (vm : String) : Option String :=
  let res := invRun (w.domifaddr vm)
  if res.2 ≠ 0 then none else findIPv4 res.1

/-- Embedding of `inventory.get_vm_state` (src/ansible/inventory.py lines 79-84). -/
def invGetVmState (w : Hyp) (vm : String) : String :=
  let res := invRun (w.domstate vm)
  if res.2 ≠ 0 then "unknown" else pyStrip res.1

/-- Per-host variables entry of the inventory document. -/
structure HostVars where
  ansible_host : String
  vm_name : String
deriving DecidableEq

/-- The varying part of `build_inventory`'s document: the fleet group's
host list and `_meta.hostvars` (an insertion-ordered mapping, as a Python
dict). The fixed group variables and `all.children` are the constants
`invGroupVars` and `invAllChildren`. -/
structure InvDoc where
  hosts : List String
  hostvars : List (String × HostVars)
deriving DecidableEq

/-- The fixed `snail_vms.vars` of `build_inventory`. -/
def invGroupVars : List (String × String) :=
  [("ansible_user", "snail"),
   ("ansible_ssh_private_key_file", "~/.ssh/snail-test-key"),
   ("ansible_python_interpreter", "/usr/bin/python3"),
   ("snail_install_path", "/opt/snail-core"),
   ("snail_venv_path", "/opt/snail-core/venv"),
   ("snail_config_path", "/etc/snail-core/config.yaml")]

/-- The fixed `all.children` of `build_inventory`. -/
def invAllChildren : List String := ["snail_vms"]

/-- Python dict assignment `d[k] = v` on an insertion-ordered association
list. -/
def dictInsert (k : String) (v : HostVars) : List (String × HostVars) → List (String × HostVars)
  | [] => [(k, v)]
  | (k', v') :: rest => if k' = k then (k, v) :: rest else (k', v') :: dictInsert k v rest

/-- One iteration of `build_inventory`'s loop (src/ansible/inventory.py
lines 111-124): skip unless the state is exactly `"running"`, skip unless
the resolved address is truthy (`if not ip`), else append the host and
set its hostvars. -/
def invStep (w : Hyp) (doc : InvDoc) (vm : String) : InvDoc :=
  if invGetVmState w vm ≠ "running" then doc
  else
    match invGetVmIp w vm with
    | none => doc
    | some ip =>
      if ip = "" then doc
      else ⟨doc.hosts ++ [vm], dictInsert vm ⟨ip, vm⟩ doc.hostvars⟩

/-- Embedding of `inventory.build_inventory` (src/ansible/inventory.py lines 87-126),
projected to its varying part. -/
def buildInventory (w : Hyp) : InvDoc :=
  (invGetVmList w).foldl (invStep w) ⟨[], []⟩

/-- Embedding of `inventory.get_host_vars` (src/ansible/inventory.py lines 129-137):
the `--host` single-host lookup, as the returned key/value pairs. -/
def getHostVars (w : Hyp) (hostname : String) : List (String × String) :=
  match invGetVmIp w hostname with
  | some ip =>
    if ip = "" then []
    else [("ansible_host", ip), ("vm_name", hostname)]
  | none => []

/-! ### Definitions written from the spec's words (for comparison only) -/

/-- Version comparison key as §4.1 of the spec states it: purely numeric
versions compare as integers, dotted `major.minor` numeric versions as
`major*100+minor`, everything else as 0.  Stated from the spec wording to
compare against the code's fleet sort key. -/
def claimedVersionKey (version : String) : Int :=
  if pyIsDigitStr version.data then (pyInt version.data).getD 0
  else
    match splitCh '.' version.data with
    | [a, b] =>
      if pyIsDigitStr a && pyIsDigitStr b then
        (pyInt a).getD 0 * 100 + (pyInt b).getD 0
      else 0
    | _ => 0

/-- Modelled from the spec: the `format` half of the Identity Codec
(§4.1), `\x7bprefix\x7d-\x7bdistro\x7d-\x7bversion\x7d-\x7binstance\x7d`.
Name construction lives in the provisioning shell scripts, which are not
under src/; the instance is passed as its decimal numeral. -/
def fmtName (pfx distro version instStr : String) : String :=
  pfx ++ "-" ++ distro ++ "-" ++ version ++ "-" ++ instStr

/-- The guard under which `build_inventory`'s loop admits a VM: state
exactly `"running"` and a truthy resolved address (derived from
`invStep`). -/
def invAddCond (w : Hyp) (vm : String) : Bool :=
  (invGetVmState w vm == "running") &&
    (match invGetVmIp w vm with
     | some ip => !(ip == "")
     | none => false)

/-! ### Concrete hypervisor states used as witnesses and counterexamples -/

/-- A listing with one debian and one fedora VM; the two `get_vm_list`
sort orders disagree on it. -/
def discWorld : Hyp :=
  ⟨("snail-test-debian-42-1\nsnail-test-fedora-12-1", 0),
    fun _ => ("", 1), fun _ => ("", 1), fun _ _ => ("", 1)⟩

/-- Three-VM fleet where every `virsh` call succeeds. -/
def stopWorldOk : Hyp :=
  ⟨("snail-test-fedora-42-3\nsnail-test-fedora-42-2\nsnail-test-fedora-42-1", 0),
    fun _ => ("running", 0), fun _ => ("", 0), fun _ _ => ("", 0)⟩

/-- Same fleet, but the mutating call for the middle VM fails. -/
def stopWorldBad : Hyp :=
  ⟨("snail-test-fedora-42-3\nsnail-test-fedora-42-2\nsnail-test-fedora-42-1", 0),
    fun _ => ("running", 0), fun _ => ("", 0),
    fun _ v => if v = "snail-test-fedora-42-2" then ("error", 1) else ("", 0)⟩

/-- Two-VM fleet, all queries healthy. -/
def fleetWorld : Hyp :=
  ⟨("snail-test-fedora-42-1\nsnail-test-fedora-42-2", 0),
    fun _ => ("running", 0),
    fun _ => (" vnet0  52:54:00:aa:bb:cc  ipv4  192.168.124.45/24", 0),
    fun _ _ => ("", 0)⟩

/-- Same fleet, but the `domstate` query for the second VM fails. -/
def fleetWorldBroken : Hyp :=
  ⟨("snail-test-fedora-42-1\nsnail-test-fedora-42-2", 0),
    fun v => if v = "snail-test-fedora-42-2" then ("", 1) else ("running", 0),
    fun _ => (" vnet0  52:54:00:aa:bb:cc  ipv4  192.168.124.45/24", 0),
    fun _ _ => ("", 0)⟩

/-- A hypervisor whose domains are shut off but whose `domifaddr` output
still contains an IPv4-looking token. -/
def offWorld : Hyp :=
  ⟨("", 0), fun _ => ("shut off", 0),
    fun _ => (" vnet0  52:54:00:aa:bb:cc  ipv4  192.168.124.45/24", 0),
    fun _ _ => ("", 0)⟩

/-! ### Lemmas about the comparators -/

theorem intCmp_lt_iff (a b : Int) : intCmp a b = .lt ↔ a < b := by
  unfold intCmp
  split_ifs with h1 h2 <;> simp_all

theorem intCmp_gt_iff (a b : Int) : intCmp a b = .gt ↔ b < a := by
  unfold intCmp
  split_ifs with h1 h2 <;> simp_all
  omega

theorem intCmp_eq_iff (a b : Int) : intCmp a b = .eq ↔ a = b := by
  unfold intCmp
  split_ifs with h1 h2 <;> simp_all <;> omega

theorem charListCmp_eq_iff : ∀ (a b : List Char), charListCmp a b = .eq ↔ a = b
  | [], [] => by simp [charListCmp]
  | [], _ :: _ => by simp [charListCmp]
  | _ :: _, [] => by simp [charListCmp]
  | a :: as, b :: bs => by
    simp only [charListCmp]
    by_cases h1 : a < b
    · rw [if_pos h1]
      simp only [List.cons.injEq]
      constructor
      · intro h; exact absurd h (by simp)
      · rintro ⟨rfl, -⟩; exact absurd h1 (lt_irrefl a)
    · rw [if_neg h1]
      by_cases h2 : b < a
      · rw [if_pos h2]
        simp only [List.cons.injEq]
        constructor
        · intro h; exact absurd h (by simp)
        · rintro ⟨rfl, -⟩; exact absurd h2 (lt_irrefl a)
      · rw [if_neg h2]
        have hab : a = b := le_antisymm (not_lt.mp h2) (not_lt.mp h1)
        subst hab
        simp [charListCmp_eq_iff as bs]

theorem charListCmp_swap : ∀ (a b : List Char), charListCmp b a = (charListCmp a b).swap
  | [], [] => by simp [charListCmp, Ordering.swap]
  | [], _ :: _ => by simp [charListCmp, Ordering.swap]
  | _ :: _, [] => by simp [charListCmp, Ordering.swap]
  | a :: as, b :: bs => by
    simp only [charListCmp]
    by_cases h1 : a < b
    · simp only [if_pos h1, if_neg (lt_asymm h1)]; rfl
    · by_cases h2 : b < a
      · simp only [if_neg h1, if_pos h2]; rfl
      · simp only [if_neg h1, if_neg h2]
        exact charListCmp_swap as bs

theorem charListCmp_lt_trans : ∀ {a b c : List Char},
    charListCmp a b = .lt → charListCmp b c = .lt → charListCmp a c = .lt
  | [], [], _, h1, _ => by simp [charListCmp] at h1
  | [], _ :: _, [], _, h2 => by simp [charListCmp] at h2
  | [], _ :: _, _ :: _, _, _ => by simp [charListCmp]
  | _ :: _, [], _, h1, _ => by simp [charListCmp] at h1
  | _ :: _, _ :: _, [], _, h2 => by simp [charListCmp] at h2
  | x :: xs, y :: ys, z :: zs, h1, h2 => by
    simp only [charListCmp] at h1 h2 ⊢
    by_cases hxy : x < y
    · by_cases hyz : y < z
      · rw [if_pos (lt_trans hxy hyz)]
      · rw [if_neg hyz] at h2
        by_cases hzy : z < y
        · rw [if_pos hzy] at h2; exact absurd h2 (by simp)
        · have : y = z := le_antisymm (not_lt.mp hzy) (not_lt.mp hyz)
          subst this
          rw [if_pos hxy]
    · rw [if_neg hxy] at h1
      by_cases hyx : y < x
      · rw [if_pos hyx] at h1; exact absurd h1 (by simp)
      · have hxy' : x = y := le_antisymm (not_lt.mp hyx) (not_lt.mp hxy)
        subst hxy'
        rw [if_neg hxy] at h1
        by_cases hyz : x < z
        · rw [if_pos hyz]
        · rw [if_neg hyz] at h2 ⊢
          by_cases hzy : z < x
          · rw [if_pos hzy] at h2; exact absurd h2 (by simp)
          · rw [if_neg hzy] at h2 ⊢
            exact charListCmp_lt_trans h1 h2

theorem strDataEq {s t : String} (h : s.data = t.data) : s = t := String.ext h

theorem keyCmp_eq_iff (x y : SortKey) : keyCmp x y = .eq ↔ x = y := by
  constructor
  · intro h
    unfold keyCmp at h
    cases hc : charListCmp x.1.data y.1.data with
    | lt => rw [hc] at h; exact Ordering.noConfusion h
    | gt => rw [hc] at h; exact Ordering.noConfusion h
    | eq =>
      rw [hc] at h
      cases hi : intCmp x.2.1 y.2.1 with
      | lt => rw [hi] at h; exact Ordering.noConfusion h
      | gt => rw [hi] at h; exact Ordering.noConfusion h
      | eq =>
        rw [hi] at h
        have h1 : x.1 = y.1 := strDataEq ((charListCmp_eq_iff _ _).mp hc)
        have h2 : x.2.1 = y.2.1 := (intCmp_eq_iff _ _).mp hi
        have h3 : x.2.2 = y.2.2 := (intCmp_eq_iff _ _).mp h
        exact Prod.ext h1 (Prod.ext h2 h3)
  · rintro rfl
    unfold keyCmp
    rw [(charListCmp_eq_iff x.1.data x.1.data).mpr rfl]
    rw [(intCmp_eq_iff x.2.1 x.2.1).mpr rfl]
    rw [(intCmp_eq_iff x.2.2 x.2.2).mpr rfl]

theorem intCmp_lt_trans {a b c : Int} (h1 : intCmp a b = .lt) (h2 : intCmp b c = .lt) :
    intCmp a c = .lt := by
  rw [intCmp_lt_iff] at h1 h2 ⊢
  omega

theorem intCmp_swap (a b : Int) : intCmp b a = (intCmp a b).swap := by
  rcases lt_trichotomy a b with h | h | h
  · rw [(intCmp_lt_iff a b).mpr h, (intCmp_gt_iff b a).mpr h]; rfl
  · subst h; rw [(intCmp_eq_iff a a).mpr rfl]; rfl
  · rw [(intCmp_gt_iff a b).mpr h, (intCmp_lt_iff b a).mpr h]; rfl

theorem keyCmp_swap (x y : SortKey) : keyCmp y x = (keyCmp x y).swap := by
  unfold keyCmp
  rw [charListCmp_swap x.1.data y.1.data, intCmp_swap x.2.1 y.2.1, intCmp_swap x.2.2 y.2.2]
  cases charListCmp x.1.data y.1.data <;>
    cases intCmp x.2.1 y.2.1 <;>
      cases intCmp x.2.2 y.2.2 <;> rfl

theorem keyCmp_lt_trans {x y z : SortKey} (h1 : keyCmp x y = .lt) (h2 : keyCmp y z = .lt) :
    keyCmp x z = .lt := by
  unfold keyCmp at h1 h2 ⊢
  cases hc1 : charListCmp x.1.data y.1.data <;> rw [hc1] at h1
  case gt => exact Ordering.noConfusion h1
  case lt =>
    cases hc2 : charListCmp y.1.data z.1.data <;> rw [hc2] at h2
    case gt => exact Ordering.noConfusion h2
    case lt => rw [charListCmp_lt_trans hc1 hc2]
    case eq =>
      have hd : y.1.data = z.1.data := (charListCmp_eq_iff _ _).mp hc2
      rw [← hd, hc1]
  case eq =>
    have hd1 : x.1.data = y.1.data := (charListCmp_eq_iff _ _).mp hc1
    cases hc2 : charListCmp y.1.data z.1.data <;> rw [hc2] at h2
    case gt => exact Ordering.noConfusion h2
    case lt => rw [hd1, hc2]
    case eq =>
      have hd2 : y.1.data = z.1.data := (charListCmp_eq_iff _ _).mp hc2
      rw [hd1, hd2, (charListCmp_eq_iff z.1.data z.1.data).mpr rfl]
      cases hi1 : intCmp x.2.1 y.2.1 <;> rw [hi1] at h1
      case gt => exact Ordering.noConfusion h1
      case lt =>
        cases hi2 : intCmp y.2.1 z.2.1 <;> rw [hi2] at h2
        case gt => exact Ordering.noConfusion h2
        case lt => rw [intCmp_lt_trans hi1 hi2]
        case eq =>
          have he : y.2.1 = z.2.1 := (intCmp_eq_iff _ _).mp hi2
          rw [← he, hi1]
      case eq =>
        have he1 : x.2.1 = y.2.1 := (intCmp_eq_iff _ _).mp hi1
        cases hi2 : intCmp y.2.1 z.2.1 <;> rw [hi2] at h2
        case gt => exact Ordering.noConfusion h2
        case lt => rw [he1, hi2]
        case eq =>
          have he2 : y.2.1 = z.2.1 := (intCmp_eq_iff _ _).mp hi2
          rw [he1, he2, (intCmp_eq_iff z.2.1 z.2.1).mpr rfl]
          cases hj1 : intCmp x.2.2 y.2.2 <;> rw [hj1] at h1
          case gt => exact Ordering.noConfusion h1
          case eq => exact Ordering.noConfusion h1
          case lt =>
            cases hj2 : intCmp y.2.2 z.2.2 <;> rw [hj2] at h2
            case gt => exact Ordering.noConfusion h2
            case eq => exact Ordering.noConfusion h2
            case lt => rw [intCmp_lt_trans hj1 hj2]

theorem keyLe_total (x y : SortKey) : keyLe x y = true ∨ keyLe y x = true := by
  unfold keyLe
  cases h : keyCmp x y with
  | lt => left; rfl
  | eq => left; rfl
  | gt =>
    right
    rw [keyCmp_swap x y, h]
    rfl

theorem keyLe_trans {x y z : SortKey} (h1 : keyLe x y = true) (h2 : keyLe y z = true) :
    keyLe x z = true := by
  unfold keyLe at h1 h2 ⊢
  cases hc1 : keyCmp x y <;> rw [hc1] at h1
  case gt => exact Bool.noConfusion h1
  case lt =>
    cases hc2 : keyCmp y z <;> rw [hc2] at h2
    case gt => exact Bool.noConfusion h2
    case lt => rw [keyCmp_lt_trans hc1 hc2]
    case eq =>
      have he : y = z := (keyCmp_eq_iff y z).mp hc2
      rw [← he, hc1]
  case eq =>
    have he : x = y := (keyCmp_eq_iff x y).mp hc1
    cases hc2 : keyCmp y z <;> rw [hc2] at h2
    case gt => exact Bool.noConfusion h2
    case lt => rw [he, hc2]
    case eq =>
      have he2 : y = z := (keyCmp_eq_iff y z).mp hc2
      rw [he, he2, (keyCmp_eq_iff z z).mpr rfl]

theorem invKeyCmp_eq_iff (x y : InvKey) : invKeyCmp x y = .eq ↔ x = y := by
  constructor
  · intro h
    unfold invKeyCmp at h
    cases hi : intCmp x.1 y.1 with
    | lt => rw [hi] at h; exact Ordering.noConfusion h
    | gt => rw [hi] at h; exact Ordering.noConfusion h
    | eq =>
      rw [hi] at h
      exact Prod.ext ((intCmp_eq_iff _ _).mp hi) ((intCmp_eq_iff _ _).mp h)
  · rintro rfl
    unfold invKeyCmp
    rw [(intCmp_eq_iff x.1 x.1).mpr rfl, (intCmp_eq_iff x.2 x.2).mpr rfl]

theorem invKeyCmp_swap (x y : InvKey) : invKeyCmp y x = (invKeyCmp x y).swap := by
  unfold invKeyCmp
  rw [intCmp_swap x.1 y.1, intCmp_swap x.2 y.2]
  cases intCmp x.1 y.1 <;> cases intCmp x.2 y.2 <;> rfl

theorem invKeyCmp_lt_trans {x y z : InvKey} (h1 : invKeyCmp x y = .lt)
    (h2 : invKeyCmp y z = .lt) : invKeyCmp x z = .lt := by
  unfold invKeyCmp at h1 h2 ⊢
  cases hi1 : intCmp x.1 y.1 <;> rw [hi1] at h1
  case gt => exact Ordering.noConfusion h1
  case lt =>
    cases hi2 : intCmp y.1 z.1 <;> rw [hi2] at h2
    case gt => exact Ordering.noConfusion h2
    case lt => rw [intCmp_lt_trans hi1 hi2]
    case eq =>
      have he : y.1 = z.1 := (intCmp_eq_iff _ _).mp hi2
      rw [← he, hi1]
  case eq =>
    have he1 : x.1 = y.1 := (intCmp_eq_iff _ _).mp hi1
    cases hi2 : intCmp y.1 z.1 <;> rw [hi2] at h2
    case gt => exact Ordering.noConfusion h2
    case lt => rw [he1, hi2]
    case eq =>
      have he2 : y.1 = z.1 := (intCmp_eq_iff _ _).mp hi2
      rw [he1, he2, (intCmp_eq_iff z.1 z.1).mpr rfl]
      rw [intCmp_lt_trans h1 h2]

theorem invKeyLe_total (x y : InvKey) : invKeyLe x y = true ∨ invKeyLe y x = true := by
  unfold invKeyLe
  cases h : invKeyCmp x y with
  | lt => left; rfl
  | eq => left; rfl
  | gt =>
    right
    rw [invKeyCmp_swap x y, h]
    rfl

theorem invKeyLe_trans {x y z : InvKey} (h1 : invKeyLe x y = true) (h2 : invKeyLe y z = true) :
    invKeyLe x z = true := by
  unfold invKeyLe at h1 h2 ⊢
  cases hc1 : invKeyCmp x y <;> rw [hc1] at h1
  case gt => exact Bool.noConfusion h1
  case lt =>
    cases hc2 : invKeyCmp y z <;> rw [hc2] at h2
    case gt => exact Bool.noConfusion h2
    case lt => rw [invKeyCmp_lt_trans hc1 hc2]
    case eq =>
      have he : y = z := (invKeyCmp_eq_iff y z).mp hc2
      rw [← he, hc1]
  case eq =>
    have he : x = y := (invKeyCmp_eq_iff x y).mp hc1
    cases hc2 : invKeyCmp y z <;> rw [hc2] at h2
    case gt => exact Bool.noConfusion h2
    case lt => rw [he, hc2]
    case eq =>
      have he2 : y = z := (invKeyCmp_eq_iff y z).mp hc2
      rw [he, he2, (invKeyCmp_eq_iff z z).mpr rfl]

/-! ### Lemmas about the stable sort -/

theorem insertSorted_perm (le : α → α → Bool) (x : α) :
    ∀ (l : List α), (insertSorted le x l).Perm (x :: l)
  | [] => by simp [insertSorted]
  | y :: ys => by
    simp only [insertSorted]
    by_cases h : le x y = true
    · rw [if_pos h]
    · rw [if_neg h]
      exact ((insertSorted_perm le x ys).cons y).trans (List.Perm.swap x y ys)

theorem stableSort_perm (le : α → α → Bool) : ∀ (l : List α), (stableSort le l).Perm l
  | [] => by simp [stableSort]
  | x :: xs => by
    simp only [stableSort]
    exact (insertSorted_perm le x (stableSort le xs)).trans ((stableSort_perm le xs).cons x)

theorem insertSorted_pairwise (le : α → α → Bool)
    (htr : ∀ a b c, le a b = true → le b c = true → le a c = true)
    (hto : ∀ a b, le a b = true ∨ le b a = true) (x : α) :
    ∀ (l : List α), l.Pairwise (fun a b => le a b = true) →
      (insertSorted le x l).Pairwise (fun a b => le a b = true)
  | [], _ => by simp [insertSorted]
  | y :: ys, h => by
    rcases List.pairwise_cons.mp h with ⟨hy, hys⟩
    simp only [insertSorted]
    by_cases hxy : le x y = true
    · rw [if_pos hxy]
      refine List.pairwise_cons.mpr ⟨?_, h⟩
      intro z hz
      rcases List.mem_cons.mp hz with rfl | hz'
      · exact hxy
      · exact htr x y z hxy (hy z hz')
    · rw [if_neg hxy]
      refine List.pairwise_cons.mpr ⟨?_, insertSorted_pairwise le htr hto x ys hys⟩
      intro z hz
      have hz' : z ∈ x :: ys := (insertSorted_perm le x ys).mem_iff.mp hz
      rcases List.mem_cons.mp hz' with rfl | hz''
      · rcases hto z y with h1 | h1
        · exact absurd h1 hxy
        · exact h1
      · exact hy z hz''

theorem stableSort_pairwise (le : α → α → Bool)
    (htr : ∀ a b c, le a b = true → le b c = true → le a c = true)
    (hto : ∀ a b, le a b = true ∨ le b a = true) :
    ∀ (l : List α), (stableSort le l).Pairwise (fun a b => le a b = true)
  | [] => by simp [stableSort]
  | x :: xs => by
    simp only [stableSort]
    exact insertSorted_pairwise le htr hto x _ (stableSort_pairwise le htr hto xs)

/-! ### Lemmas about splitting, stripping and digit parsing -/

theorem splitCh_ne_nil (sep : Char) : ∀ (cs : List Char), splitCh sep cs ≠ []
  | [] => by simp [splitCh]
  | c :: cs => by
    simp only [splitCh]
    by_cases h : c = sep
    · rw [if_pos h]; exact List.cons_ne_nil _ _
    · rw [if_neg h]; exact List.cons_ne_nil _ _

theorem splitCh_append (sep : Char) : ∀ (xs ys : List Char),
    splitCh sep (xs ++ sep :: ys) = splitCh sep xs ++ splitCh sep ys
  | [], ys => by simp [splitCh]
  | x :: xs, ys => by
    by_cases h : x = sep
    · simp only [List.cons_append, splitCh, if_pos h, List.append_eq, splitCh_append sep xs ys]
    · cases hA : splitCh sep xs with
      | nil => exact absurd hA (splitCh_ne_nil sep xs)
      | cons a A =>
        simp only [List.cons_append, splitCh, if_neg h, List.append_eq,
          splitCh_append sep xs ys, hA]
        rfl

theorem splitCh_of_not_mem (sep : Char) : ∀ (cs : List Char), sep ∉ cs → splitCh sep cs = [cs]
  | [], _ => rfl
  | c :: cs, h => by
    have h1 : ¬ (c = sep) := fun e => h (e ▸ List.mem_cons_self c cs)
    have h2 : sep ∉ cs := fun e => h (List.mem_cons_of_mem c e)
    simp [splitCh, h1, splitCh_of_not_mem sep cs h2]

theorem splitCh_parts_not_mem (sep : Char) :
    ∀ (cs : List Char), ∀ g ∈ splitCh sep cs, sep ∉ g
  | [] => by
    intro g hg
    simp only [splitCh, List.mem_singleton] at hg
    subst hg
    simp
  | c :: cs => by
    intro g hg
    by_cases h : c = sep
    · simp only [splitCh, if_pos h] at hg
      rcases List.mem_cons.mp hg with rfl | hg'
      · simp
      · exact splitCh_parts_not_mem sep cs g hg'
    · simp only [splitCh, if_neg h] at hg
      rcases List.mem_cons.mp hg with rfl | hg'
      · intro hmem
        rcases List.mem_cons.mp hmem with he | hmem'
        · exact h he.symm
        · cases hr : splitCh sep cs with
          | nil => exact absurd hr (splitCh_ne_nil sep cs)
          | cons a A =>
            rw [hr] at hmem'
            simp only [List.headD_cons] at hmem'
            exact splitCh_parts_not_mem sep cs a (by rw [hr]; exact List.mem_cons_self a A) hmem'
      · have hg'' : g ∈ splitCh sep cs := List.mem_of_mem_tail hg'
        exact splitCh_parts_not_mem sep cs g hg''

theorem dropWhile_all_false {p : Char → Bool} :
    ∀ {cs : List Char}, (∀ c ∈ cs, p c = false) → cs.dropWhile p = cs
  | [], _ => rfl
  | c :: cs, h => by
    rw [List.dropWhile_cons, if_neg]
    rw [h c (List.mem_cons_self c cs)]
    simp

theorem mem_dropWhile {p : Char → Bool} {c : Char} :
    ∀ {cs : List Char}, c ∈ cs.dropWhile p → c ∈ cs
  | [], h => h
  | x :: xs, h => by
    rw [List.dropWhile_cons] at h
    by_cases hx : p x = true
    · rw [if_pos hx] at h
      exact List.mem_cons_of_mem x (mem_dropWhile h)
    · rw [if_neg hx] at h
      exact h

theorem stripWS_all_not_ws {cs : List Char} (h : ∀ c ∈ cs, isPyWS c = false) :
    stripWS cs = cs := by
  unfold stripWS
  rw [dropWhile_all_false h,
    dropWhile_all_false (fun c hc => h c (List.mem_reverse.mp hc)), List.reverse_reverse]

theorem mem_stripWS {c : Char} {cs : List Char} (h : c ∈ stripWS cs) : c ∈ cs := by
  unfold stripWS at h
  exact mem_dropWhile (List.mem_reverse.mp (mem_dropWhile (List.mem_reverse.mp h)))

theorem isDigit_not_ws {c : Char} (h : c.isDigit = true) : isPyWS c = false := by
  by_contra hc
  rw [Bool.not_eq_false] at hc
  simp only [isPyWS, Bool.or_eq_true, beq_iff_eq] at hc
  rcases hc with ((((e | e) | e) | e) | e) | e <;> subst e <;> exact absurd h (by decide)

theorem isDigit_ne_of {c : Char} (d : Char) (hd : d.isDigit = false) (h : c.isDigit = true) :
    ¬ (c = d) := by
  intro e
  subst e
  rw [h] at hd
  exact Bool.noConfusion hd

theorem digitsCore_all_digits :
    ∀ (cs : List Char) (acc : Nat), (∀ c ∈ cs, c.isDigit = true) →
      digitsCore acc cs = some (cs.foldl (fun a c => a * 10 + digitVal c) acc)
  | [], acc, _ => by simp [digitsCore]
  | c :: cs, acc, h => by
    have hc : c.isDigit = true := h c (List.mem_cons_self c cs)
    rw [digitsCore.eq_def]
    dsimp only []
    rw [if_pos hc, List.foldl_cons]
    exact digitsCore_all_digits cs _ (fun x hx => h x (List.mem_cons_of_mem c hx))

theorem startDigits_all_digits {cs : List Char} (hne : cs ≠ [])
    (h : ∀ c ∈ cs, c.isDigit = true) : startDigits cs = some (digitsVal cs) := by
  cases cs with
  | nil => exact absurd rfl hne
  | cons c cs' =>
    have hc := h c (List.mem_cons_self c cs')
    simp only [startDigits]
    rw [if_pos hc,
      digitsCore_all_digits cs' (digitVal c) (fun x hx => h x (List.mem_cons_of_mem c hx))]
    simp [digitsVal]

theorem pyInt_all_digits {cs : List Char} (hne : cs ≠ []) (h : ∀ c ∈ cs, c.isDigit = true) :
    pyInt cs = some ((digitsVal cs : Nat) : Int) := by
  unfold pyInt
  rw [stripWS_all_not_ws (fun c hc => isDigit_not_ws (h c hc))]
  cases cs with
  | nil => exact absurd rfl hne
  | cons c cs' =>
    have hc := h c (List.mem_cons_self c cs')
    simp only [pyIntSigned]
    rw [if_neg (isDigit_ne_of '+' (by decide) hc), if_neg (isDigit_ne_of '-' (by decide) hc),
      startDigits_all_digits hne h]
    rfl

theorem pyInt_nonneg {cs : List Char} (h : ('-' : Char) ∉ cs) :
    ∀ {k : Int}, pyInt cs = some k → 0 ≤ k := by
  intro k hk
  unfold pyInt at hk
  cases hs : stripWS cs with
  | nil => rw [hs] at hk; exact Option.noConfusion hk
  | cons c rest =>
    rw [hs] at hk
    simp only [pyIntSigned] at hk
    by_cases h1 : c = '+'
    · rw [if_pos h1] at hk
      cases hsd : startDigits rest with
      | none => rw [hsd] at hk; exact Option.noConfusion hk
      | some n =>
        rw [hsd] at hk
        simp at hk
        omega
    · rw [if_neg h1] at hk
      by_cases h2 : c = '-'
      · exfalso
        apply h
        apply mem_stripWS
        rw [hs, ← h2]
        exact List.mem_cons_self c rest
      · rw [if_neg h2] at hk
        cases hsd : startDigits (c :: rest) with
        | none => rw [hsd] at hk; exact Option.noConfusion hk
        | some n =>
          rw [hsd] at hk
          simp at hk
          omega

theorem pyIntOr0_nonneg {cs : List Char} (h : ('-' : Char) ∉ cs) : 0 ≤ pyIntOr0 cs := by
  unfold pyIntOr0
  cases hk : pyInt cs with
  | none => simp
  | some v => exact pyInt_nonneg h hk

/-! ### Lemmas about the IPv4 extraction -/

theorem octetDot_fst_ne_nil {cs : List Char} {k : Nat} {gr : List Char × List Char}
    (h : octetDot cs k = some gr) : gr.1 ≠ [] := by
  unfold octetDot at h
  split at h
  · split at h
    · have he := Option.some.inj h
      rw [← he]
      simp
    · exact Option.noConfusion h
  · exact Option.noConfusion h

theorem octetDotBT_fst_ne_nil {cs : List Char} {gr : List Char × List Char}
    (h : octetDotBT cs = some gr) : gr.1 ≠ [] := by
  unfold octetDotBT at h
  split at h
  · rename_i r heq
    exact (Option.some.inj h) ▸ octetDot_fst_ne_nil heq
  · split at h
    · rename_i r heq
      exact (Option.some.inj h) ▸ octetDot_fst_ne_nil heq
    · exact octetDot_fst_ne_nil h

theorem matchIPv4At_ne_nil {cs : List Char} {m : List Char} (h : matchIPv4At cs = some m) :
    m ≠ [] := by
  unfold matchIPv4At at h
  split at h
  · exact Option.noConfusion h
  · rename_i g1 r1 heq1
    split at h
    · exact Option.noConfusion h
    · rename_i g2 r2 heq2
      split at h
      · exact Option.noConfusion h
      · rename_i g3 r3 heq3
        split at h
        · exact Option.noConfusion h
        · rename_i g4 r4 heq4
          have hm := Option.some.inj h
          intro hnil
          rw [← hm] at hnil
          rcases List.append_eq_nil.mp hnil with ⟨h3, -⟩
          rcases List.append_eq_nil.mp h3 with ⟨h2, -⟩
          rcases List.append_eq_nil.mp h2 with ⟨h1, -⟩
          have := octetDotBT_fst_ne_nil heq1
          simp at this
          exact this h1

theorem searchIPv4_ne_nil : ∀ {cs : List Char} {m : List Char}, searchIPv4 cs = some m → m ≠ []
  | [], _, h => Option.noConfusion h
  | c :: cs, m, h => by
    unfold searchIPv4 at h
    split at h
    · rename_i m' heq
      exact (Option.some.inj h) ▸ matchIPv4At_ne_nil heq
    · exact searchIPv4_ne_nil h

theorem findIPv4_ne_empty {s t : String} (h : findIPv4 s = some t) : t ≠ "" := by
  unfold findIPv4 at h
  cases hs : searchIPv4 s.data with
  | none => rw [hs] at h; exact Option.noConfusion h
  | some m =>
    rw [hs] at h
    simp only [Option.map_some'] at h
    have hm := Option.some.inj h
    intro he
    rw [← hm] at he
    have hd : m = [] := by
      have := congrArg String.data he
      simpa using this
    exact searchIPv4_ne_nil hs hd

theorem invGetVmIp_ne_empty {w : Hyp} {vm ip : String} (h : invGetVmIp w vm = some ip) :
    ip ≠ "" := by
  unfold invGetVmIp at h
  dsimp only [] at h
  split at h
  · exact Option.noConfusion h
  · exact findIPv4_ne_empty h

/-! ### Lemmas about the name parse (`sort_key`) -/

theorem sortKeyH_modern (name : String) (pcs d v ncs : List Char)
    (hname : name.data = pcs ++ '-' :: (d ++ '-' :: (v ++ '-' :: ncs)))
    (hd : ('-' : Char) ∉ d) (hv : ('-' : Char) ∉ v)
    (hne : ncs ≠ []) (hdig : ∀ c ∈ ncs, c.isDigit = true) :
    sortKeyH name = (String.mk d, pyIntOr0 v, (digitsVal ncs : Int)) := by
  have hnd : ('-' : Char) ∉ ncs := fun hm => absurd (hdig '-' hm) (by decide)
  have hsplit : splitCh '-' name.data =
      splitCh '-' pcs ++ ([d] ++ ([v] ++ [ncs])) := by
    rw [hname, splitCh_append '-' pcs, splitCh_append '-' d, splitCh_append '-' v,
      splitCh_of_not_mem '-' d hd, splitCh_of_not_mem '-' v hv, splitCh_of_not_mem '-' ncs hnd]
  cases hA : (splitCh '-' pcs).reverse with
  | nil =>
    exfalso
    exact splitCh_ne_nil '-' pcs (List.reverse_eq_nil_iff.mp hA)
  | cons a rest =>
    have hrev : (splitCh '-' name.data).reverse = ncs :: v :: d :: (a :: rest) := by
      rw [hsplit]
      simp [List.reverse_append, hA]
    unfold sortKeyH
    rw [hrev]
    dsimp only []
    rw [pyInt_all_digits hne hdig]

theorem sortKeyH_legacy (name : String) (pcs vcs ncs : List Char)
    (hname : name.data = pcs ++ '-' :: (vcs ++ '-' :: ncs))
    (hp : ('-' : Char) ∉ pcs)
    (hvne : vcs ≠ []) (hvdig : ∀ c ∈ vcs, c.isDigit = true)
    (hnne : ncs ≠ []) (hndig : ∀ c ∈ ncs, c.isDigit = true) :
    sortKeyH name = ("fedora", (digitsVal vcs : Int), (digitsVal ncs : Int)) := by
  have hnv : ('-' : Char) ∉ vcs := fun hm => absurd (hvdig '-' hm) (by decide)
  have hnd : ('-' : Char) ∉ ncs := fun hm => absurd (hndig '-' hm) (by decide)
  have hsplit : splitCh '-' name.data = [pcs] ++ ([vcs] ++ [ncs]) := by
    rw [hname, splitCh_append '-' pcs, splitCh_append '-' vcs,
      splitCh_of_not_mem '-' pcs hp, splitCh_of_not_mem '-' vcs hnv,
      splitCh_of_not_mem '-' ncs hnd]
  have hrev : (splitCh '-' name.data).reverse = [ncs, vcs, pcs] := by
    rw [hsplit]
    simp
  unfold sortKeyH
  rw [hrev]
  dsimp only []
  rw [pyInt_all_digits hvne hvdig, pyInt_all_digits hnne hndig]

theorem sortKeyH_nonneg (name : String) :
    0 ≤ (sortKeyH name).2.1 ∧ 0 ≤ (sortKeyH name).2.2 := by
  unfold sortKeyH
  cases hrev : (splitCh '-' name.data).reverse with
  | nil => simp
  | cons number t1 =>
    have hnum : ('-' : Char) ∉ number :=
      splitCh_parts_not_mem '-' name.data number
        (List.mem_reverse.mp (hrev ▸ List.mem_cons_self number t1))
    cases t1 with
    | nil => simp
    | cons version t2 =>
      have hver : ('-' : Char) ∉ version :=
        splitCh_parts_not_mem '-' name.data version
          (List.mem_reverse.mp
            (hrev ▸ List.mem_cons_of_mem number (List.mem_cons_self version t2)))
      cases t2 with
      | nil => simp
      | cons distro t3 =>
        cases t3 with
        | nil =>
          cases hv : pyInt version with
          | none => cases hn : pyInt number <;> simp [hv, hn]
          | some v0 =>
            cases hn : pyInt number with
            | none => simp [hv, hn]
            | some n0 =>
              simp only [hv, hn]
              exact ⟨pyInt_nonneg hver hv, pyInt_nonneg hnum hn⟩
        | cons p4 t4 =>
          cases hn : pyInt number with
          | none => simp [hn]
          | some n0 =>
            simp only [hn]
            exact ⟨pyIntOr0_nonneg hver, pyInt_nonneg hnum hn⟩

theorem invSortKey_nonneg (name : String) :
    0 ≤ (invSortKey name).1 ∧ 0 ≤ (invSortKey name).2 := by
  unfold invSortKey
  cases hrev : (splitCh '-' name.data).reverse with
  | nil => simp
  | cons number t1 =>
    have hnum : ('-' : Char) ∉ number :=
      splitCh_parts_not_mem '-' name.data number
        (List.mem_reverse.mp (hrev ▸ List.mem_cons_self number t1))
    cases t1 with
    | nil => simp
    | cons version t2 =>
      have hver : ('-' : Char) ∉ version :=
        splitCh_parts_not_mem '-' name.data version
          (List.mem_reverse.mp
            (hrev ▸ List.mem_cons_of_mem number (List.mem_cons_self version t2)))
      cases t2 with
      | nil => simp
      | cons p3 t3 =>
        cases hv : pyInt version with
        | none => cases hn : pyInt number <;> simp [hv, hn]
        | some v0 =>
          cases hn : pyInt number with
          | none => simp [hv, hn]
          | some n0 =>
            simp only [hv, hn]
            exact ⟨pyInt_nonneg hver hv, pyInt_nonneg hnum hn⟩

theorem keyLe_of_ne_gt {x y : SortKey} (h : ¬ (keyCmp x y = .gt)) : keyLe x y = true := by
  unfold keyLe
  cases hc : keyCmp x y with
  | lt => rfl
  | eq => rfl
  | gt => exact absurd hc h

theorem charListCmp_nil_ne_gt (l : List Char) : ¬ (charListCmp [] l = .gt) := by
  cases l <;> simp [charListCmp]

theorem keyLe_bottom {k : SortKey} (h1 : 0 ≤ k.2.1) (h2 : 0 ≤ k.2.2) :
    keyLe ("", 0, 0) k = true := by
  apply keyLe_of_ne_gt
  intro hgt
  unfold keyCmp at hgt
  have hemp : (("", (0 : Int), (0 : Int)) : SortKey).1.data = ([] : List Char) := rfl
  rw [hemp] at hgt
  cases hc : charListCmp [] k.1.data with
  | lt => rw [hc] at hgt; exact Ordering.noConfusion hgt
  | gt => exact charListCmp_nil_ne_gt k.1.data hc
  | eq =>
    rw [hc] at hgt
    cases hi : intCmp ((("", (0 : Int), (0 : Int)) : SortKey).2.1) k.2.1 with
    | lt => rw [hi] at hgt; exact Ordering.noConfusion hgt
    | gt =>
      have := (intCmp_gt_iff _ _).mp hi
      simp at this
      omega
    | eq =>
      rw [hi] at hgt
      have := (intCmp_gt_iff _ _).mp hgt
      simp at this
      omega

theorem keyLe_bottom_sortKeyH (s : String) : keyLe ("", 0, 0) (sortKeyH s) = true :=
  keyLe_bottom (sortKeyH_nonneg s).1 (sortKeyH_nonneg s).2

theorem invKeyLe_of_ne_gt {x y : InvKey} (h : ¬ (invKeyCmp x y = .gt)) : invKeyLe x y = true := by
  unfold invKeyLe
  cases hc : invKeyCmp x y with
  | lt => rfl
  | eq => rfl
  | gt => exact absurd hc h

theorem invKeyLe_bottom {k : InvKey} (h1 : 0 ≤ k.1) (h2 : 0 ≤ k.2) :
    invKeyLe (0, 0) k = true := by
  apply invKeyLe_of_ne_gt
  intro hgt
  unfold invKeyCmp at hgt
  cases hi : intCmp (((0 : Int), (0 : Int)) : InvKey).1 k.1 with
  | lt => rw [hi] at hgt; exact Ordering.noConfusion hgt
  | gt =>
    have := (intCmp_gt_iff _ _).mp hi
    simp at this
    omega
  | eq =>
    rw [hi] at hgt
    have := (intCmp_gt_iff _ _).mp hgt
    simp at this
    omega

theorem invKeyLe_bottom_invSortKey (s : String) : invKeyLe (0, 0) (invSortKey s) = true :=
  invKeyLe_bottom (invSortKey_nonneg s).1 (invSortKey_nonneg s).2

/-! ### Lemmas about `build_inventory`'s loop -/

theorem invStep_eq (w : Hyp) (doc : InvDoc) (vm : String) :
    invStep w doc vm =
      if invAddCond w vm then
        ⟨doc.hosts ++ [vm],
          dictInsert vm ⟨(invGetVmIp w vm).getD "", vm⟩ doc.hostvars⟩
      else doc := by
  unfold invStep invAddCond
  by_cases h1 : invGetVmState w vm = "running"
  · rw [if_neg (fun hne => hne h1)]
    cases hip : invGetVmIp w vm with
    | none => simp [h1, hip]
    | some ip =>
      by_cases he : ip = ""
      · simp [h1, hip, he]
      · simp [h1, hip, he]
  · rw [if_pos h1]
    have : (invGetVmState w vm == "running") = false := by
      simp [h1]
    simp [this]

theorem invAddCond_iff (w : Hyp) (vm : String) :
    invAddCond w vm = true ↔
      invGetVmState w vm = "running" ∧ ¬ (invGetVmIp w vm = none) := by
  unfold invAddCond
  rw [Bool.and_eq_true, beq_iff_eq]
  constructor
  · rintro ⟨h1, h2⟩
    refine ⟨h1, ?_⟩
    cases hip : invGetVmIp w vm with
    | none => rw [hip] at h2; exact Bool.noConfusion h2
    | some ip => simp
  · rintro ⟨h1, h2⟩
    refine ⟨h1, ?_⟩
    cases hip : invGetVmIp w vm with
    | none => exact absurd hip h2
    | some ip =>
      have hne := invGetVmIp_ne_empty hip
      simp [hne]

theorem foldl_invStep_hosts (w : Hyp) :
    ∀ (L : List String) (doc : InvDoc),
      (L.foldl (invStep w) doc).hosts = doc.hosts ++ L.filter (invAddCond w)
  | [], doc => by simp
  | vm :: L, doc => by
    rw [List.foldl_cons, foldl_invStep_hosts w L, List.filter_cons]
    by_cases h : invAddCond w vm = true
    · rw [if_pos h, invStep_eq, if_pos h]
      simp
    · rw [if_neg h, invStep_eq, if_neg h]

theorem dictInsert_keys (k : String) (v : HostVars) :
    ∀ (m : List (String × HostVars)) (x : String),
      x ∈ (dictInsert k v m).map Prod.fst ↔ x = k ∨ x ∈ m.map Prod.fst
  | [], x => by simp [dictInsert]
  | (k', v') :: rest, x => by
    unfold dictInsert
    by_cases h : k' = k
    · rw [if_pos h]
      subst h
      simp
    · rw [if_neg h]
      simp only [List.map_cons, List.mem_cons, dictInsert_keys k v rest x]
      tauto

theorem foldl_invStep_keys (w : Hyp) :
    ∀ (L : List String) (doc : InvDoc),
      (∀ x, x ∈ doc.hostvars.map Prod.fst ↔ x ∈ doc.hosts) →
      ∀ x, x ∈ (L.foldl (invStep w) doc).hostvars.map Prod.fst ↔
        x ∈ (L.foldl (invStep w) doc).hosts
  | [], _, hinv => hinv
  | vm :: L, doc, hinv => by
    rw [List.foldl_cons]
    apply foldl_invStep_keys w L
    intro x
    rw [invStep_eq]
    by_cases h : invAddCond w vm = true
    · rw [if_pos h]
      simp only []
      rw [dictInsert_keys, hinv x]
      simp [List.mem_append, or_comm]
    · rw [if_neg h]
      exact hinv x

/-! ### Discovery and shutdown-wait helper lemmas -/

theorem getVmListH_listOut (pfx : String) {w w' : Hyp} (h : w'.listOut = w.listOut) :
    getVmListH pfx w' = getVmListH pfx w := by
  unfold getVmListH harnessSurvivors
  rw [h]

theorem shutdownWaitLoop_char (ws : Nat → Hyp) (vms : List String) :
    ∀ (n j : Nat), j + n = 30 →
      shutdownWaitLoop ws vms (2 * j) =
        (match (List.range' j n).find? (fun k => allShutAt (ws (2 * k)) vms) with
         | some k => 2 * k
         | none => 60)
  | 0, j, hj => by
    have hj30 : j = 30 := by omega
    subst hj30
    rw [shutdownWaitLoop]
    simp
  | n + 1, j, hj => by
    have hlt : 2 * j < 60 := by omega
    rw [shutdownWaitLoop, if_pos hlt, List.range'_succ, List.find?_cons]
    by_cases h : allShutAt (ws (2 * j)) vms = true
    · rw [if_pos h, h]
    · rw [if_neg h]
      have h' : allShutAt (ws (2 * j)) vms = false := by
        cases hb : allShutAt (ws (2 * j)) vms with
        | true => exact absurd hb h
        | false => rfl
      rw [h']
      have : 2 * j + 2 = 2 * (j + 1) := by omega
      rw [this, shutdownWaitLoop_char ws vms n (j + 1) (by omega)]

/-! ### The claims -/

/-- C4: for every hypervisor state, the set of keys of the inventory
document's `_meta.hostvars` is exactly the set of host names in the
`snail_vms` group's member list — never a strict superset or subset. -/
theorem C4_hostvars_keys_eq_hosts (w : Hyp) (x : String) :
    x ∈ (buildInventory w).hostvars.map Prod.fst ↔ x ∈ (buildInventory w).hosts := by
  unfold buildInventory
  exact foldl_invStep_keys w (invGetVmList w) ⟨[], []⟩ (by intro y; simp) x

/-- C5: a VM appears in the full-fleet projection's host list (and in its
hostvars) if and only if it is in the discovered fleet, its run state is
exactly `"running"`, and an address was resolved for it; in particular a
running VM with no resolvable address appears in neither. -/
theorem C5_running_with_address_iff (w : Hyp) (vm : String) :
    (vm ∈ (buildInventory w).hosts ↔
      vm ∈ invGetVmList w ∧ invGetVmState w vm = "running" ∧
        ¬ (invGetVmIp w vm = none)) ∧
    (vm ∈ (buildInventory w).hostvars.map Prod.fst ↔
      vm ∈ invGetVmList w ∧ invGetVmState w vm = "running" ∧
        ¬ (invGetVmIp w vm = none)) := by
  have hhosts : (buildInventory w).hosts = (invGetVmList w).filter (invAddCond w) := by
    unfold buildInventory
    rw [foldl_invStep_hosts]
    simp
  have hmain : vm ∈ (buildInventory w).hosts ↔
      vm ∈ invGetVmList w ∧ invGetVmState w vm = "running" ∧
        ¬ (invGetVmIp w vm = none) := by
    rw [hhosts, List.mem_filter, invAddCond_iff]
  have hkeys : vm ∈ (buildInventory w).hostvars.map Prod.fst ↔
      vm ∈ (buildInventory w).hosts := by
    unfold buildInventory
    exact foldl_invStep_keys w (invGetVmList w) ⟨[], []⟩ (by intro y; simp) vm
  exact ⟨hmain, hkeys.trans hmain⟩

/-- C10: the single-host lookup `get_host_vars` returns exactly the
mapping `ansible_host ↦ ip, vm_name ↦ hostname` when the address query
yields an IPv4-looking token and the empty mapping otherwise, and it
consults only the `domifaddr` query — the VM's run state is never
checked. -/
theorem C10_get_host_vars_address_only (w : Hyp) (hostname : String) :
    getHostVars w hostname =
      (match invGetVmIp w hostname with
       | some ip => [("ansible_host", ip), ("vm_name", hostname)]
       | none => []) ∧
    (∀ w' : Hyp, w'.domifaddr hostname = w.domifaddr hostname →
      getHostVars w' hostname = getHostVars w hostname) := by
  constructor
  · unfold getHostVars
    cases hip : invGetVmIp w hostname with
    | none => rfl
    | some ip =>
      dsimp only []
      rw [if_neg (invGetVmIp_ne_empty hip)]
  · intro w' hw
    have hip : invGetVmIp w' hostname = invGetVmIp w hostname := by
      unfold invGetVmIp invRun
      rw [hw]
    unfold getHostVars
    rw [hip]

/-- C10 witness: for a concrete hypervisor whose domain is `"shut off"`
but whose `domifaddr` output contains `192.168.124.45`, the lookup still
returns the non-empty mapping; the state-independence part of the theorem
is applied at this input. -/
theorem C10_get_host_vars_address_only_witness :
    invGetVmState offWorld "snail-test-fedora-42-1" = "shut off" ∧
    getHostVars offWorld "snail-test-fedora-42-1" =
      [("ansible_host", "192.168.124.45"), ("vm_name", "snail-test-fedora-42-1")] ∧
    getHostVars offWorld "snail-test-fedora-42-1" =
      getHostVars offWorld "snail-test-fedora-42-1" :=
  ⟨by decide, by decide,
    (C10_get_host_vars_address_only offWorld "snail-test-fedora-42-1").2 offWorld rfl⟩

/-- C9: the `shutdown --wait` polling loop checks the fleet at elapsed
times 0, 2, ..., 58; it stops at the first poll at which every selected
VM is observed shut down (with no warning), and otherwise terminates with
elapsed 60 and reports the incomplete-shutdown warning instead of raising
an error; the final elapsed value never exceeds 60. -/
theorem C9_shutdown_wait_bounded (ws : Nat → Hyp) (vms : List String) :
    shutdownWaitH ws vms =
      (match (List.range 30).find? (fun k => allShutAt (ws (2 * k)) vms) with
       | some k => (2 * k, false)
       | none => (60, true)) ∧
    (shutdownWaitH ws vms).1 ≤ 60 := by
  have hloop : shutdownWaitLoop ws vms 0 =
      (match (List.range 30).find? (fun k => allShutAt (ws (2 * k)) vms) with
       | some k => 2 * k
       | none => 60) := by
    have h := shutdownWaitLoop_char ws vms 30 0 (by omega)
    rw [List.range_eq_range']
    simpa using h
  unfold shutdownWaitH
  dsimp only []
  rw [hloop]
  cases hf : (List.range 30).find? (fun k => allShutAt (ws (2 * k)) vms) with
  | none =>
    dsimp only []
    exact ⟨rfl, by omega⟩
  | some k =>
    have hk : k < 30 := List.mem_range.mp (List.mem_of_find?_eq_some hf)
    have hnot : ¬ (60 ≤ 2 * k) := by omega
    dsimp only []
    constructor
    · rw [decide_eq_false hnot]
    · show 2 * k ≤ 60
      omega

/-- C7: if the `domstate` query fails for one VM `b` while the listing
and every other VM's queries are unchanged, full discovery still returns
one record per fleet member: `b`'s record is `(b, no address, "unknown")`
and every other VM's record is exactly what the healthy hypervisor
yields. -/
theorem C7_state_failure_isolated (pfx : String) (w w' : Hyp) (b : String)
    (hlist : w'.listOut = w.listOut)
    (hfail : ¬ ((w'.domstate b).2 = 0))
    (hothers : ∀ v, ¬ (v = b) →
      w'.domstate v = w.domstate v ∧ w'.domifaddr v = w.domifaddr v) :
    (getAllVmInfoH pfx w').length = (getVmListH pfx w).length ∧
    getAllVmInfoH pfx w' = (getVmListH pfx w).map
      (fun v => if v = b then ⟨b, none, "unknown"⟩ else getVmInfoH w v) := by
  have hlists : getVmListH pfx w' = getVmListH pfx w := getVmListH_listOut pfx hlist
  have hmap : getAllVmInfoH pfx w' = (getVmListH pfx w).map
      (fun v => if v = b then ⟨b, none, "unknown"⟩ else getVmInfoH w v) := by
    unfold getAllVmInfoH
    rw [hlists]
    apply List.map_congr_left
    intro v hv
    by_cases hvb : v = b
    · subst hvb
      rw [if_pos rfl]
      unfold getVmInfoH
      dsimp only []
      rw [if_neg hfail, if_neg (by decide : ¬ (("unknown" : String) = "running"))]
    · rw [if_neg hvb]
      unfold getVmInfoH
      rw [(hothers v hvb).1, (hothers v hvb).2]
  exact ⟨by rw [hmap]; simp, hmap⟩

/-- C7 witness: in a two-VM fleet where only the second VM's `domstate`
query fails, discovery still returns both records, degrading only the
second. -/
theorem C7_state_failure_isolated_witness :
    ¬ ((fleetWorldBroken.domstate "snail-test-fedora-42-2").2 = 0) ∧
    (getAllVmInfoH "snail-test" fleetWorldBroken).length =
      (getVmListH "snail-test" fleetWorld).length ∧
    getAllVmInfoH "snail-test" fleetWorldBroken =
      (getVmListH "snail-test" fleetWorld).map
        (fun v => if v = "snail-test-fedora-42-2" then
            ⟨"snail-test-fedora-42-2", none, "unknown"⟩
          else getVmInfoH fleetWorld v) :=
  ⟨by decide,
   (C7_state_failure_isolated "snail-test" fleetWorld fleetWorldBroken
      "snail-test-fedora-42-2" rfl (by decide)
      (fun v hv => ⟨by simp only [fleetWorldBroken, fleetWorld, if_neg hv], rfl⟩)).1,
   (C7_state_failure_isolated "snail-test" fleetWorld fleetWorldBroken
      "snail-test-fedora-42-2" rfl (by decide)
      (fun v hv => ⟨by simp only [fleetWorldBroken, fleetWorld, if_neg hv], rfl⟩)).2⟩

/-- C8 counterexample: with the fleet `[42-3, 42-2, 42-1]` and the
hypervisor failing the call for `42-2`, `stop` still issues all three
calls (so the batch is not aborted), but its printed output is identical
to the all-success run: the failure of `42-2` is not reported anywhere,
contradicting the claim that failures are reported per VM. -/
theorem C8_counterexample :
    (stopH "snail-test" stopWorldBad none false).1 =
      [("shutdown", "snail-test-fedora-42-3", 0),
       ("shutdown", "snail-test-fedora-42-2", 1),
       ("shutdown", "snail-test-fedora-42-1", 0)] ∧
    (stopH "snail-test" stopWorldBad none false).2 =
      (stopH "snail-test" stopWorldOk none false).2 := by
  refine ⟨by decide, by decide⟩

/-- C8 amended: `stop` issues exactly one hypervisor call per selected VM
(`virsh destroy` when forced, `virsh shutdown` otherwise) regardless of
any call's outcome, and its printed output depends only on the selection:
per-VM failures are neither reported nor raised. -/
theorem C8_stop_one_call_per_vm (pfx : String) (w : Hyp) (vmOpt : Option String)
    (force : Bool) :
    (stopH pfx w vmOpt force).1.map (fun c => c.2.1) = stopSelection pfx w vmOpt ∧
    (∀ c ∈ (stopH pfx w vmOpt force).1, c.1 = (if force then "destroy" else "shutdown")) ∧
    (∀ w' : Hyp, stopSelection pfx w vmOpt = stopSelection pfx w' vmOpt →
      (stopH pfx w vmOpt force).2 = (stopH pfx w' vmOpt force).2) := by
  refine ⟨?_, ?_, ?_⟩
  · unfold stopH
    dsimp only []
    rw [List.map_map]
    exact List.map_id' _
  · intro c hc
    unfold stopH at hc
    dsimp only [] at hc
    simp only [List.mem_map] at hc
    rcases hc with ⟨v, -, rfl⟩
    rfl
  · intro w' hsel
    unfold stopH
    dsimp only []
    rw [hsel]

/-- C8 witness: the amended theorem applied at the concrete three-VM
fleet, with the message-independence hypothesis discharged between the
failing and the healthy hypervisor. -/
theorem C8_stop_one_call_per_vm_witness :
    stopSelection "snail-test" stopWorldBad none =
      stopSelection "snail-test" stopWorldOk none ∧
    (stopH "snail-test" stopWorldBad none false).2 =
      (stopH "snail-test" stopWorldOk none false).2 ∧
    (stopH "snail-test" stopWorldBad none false).1.map (fun c => c.2.1) =
      stopSelection "snail-test" stopWorldBad none :=
  ⟨by decide,
   (C8_stop_one_call_per_vm "snail-test" stopWorldBad none false).2.2 stopWorldOk (by decide),
   (C8_stop_one_call_per_vm "snail-test" stopWorldBad none false).1⟩

theorem pyIsDigitStr_of {cs : List Char} (hne : cs ≠ []) (h : ∀ c ∈ cs, c.isDigit = true) :
    pyIsDigitStr cs = true := by
  unfold pyIsDigitStr
  cases cs with
  | nil => exact absurd rfl hne
  | cons c cs' =>
    simp only [List.isEmpty_cons, Bool.not_false, Bool.true_and, List.all_eq_true]
    exact h

/-- C1 counterexample: with the configured prefix `snail-test` (which
contains a hyphen) the legacy-form name `snail-test-42-7` is parsed under
the modern branch, yielding distro `"test"` — not the deployment's
default distribution (`"fedora"`), and not `"fedora"` at all. -/
theorem C1_counterexample :
    sortKeyH (vmPfx ++ "-42-7") = ("test", 42, 7) ∧
    ¬ (("test" : String) = defaultDistroFallback) := by
  refine ⟨by decide, by decide⟩

/-- C1 amended: a legacy-form name `prefix-version-instance` (numeric
version and instance) parses to the hard-coded distro `"fedora"` only
when the prefix contains no hyphen; when the prefix contains a hyphen
(e.g. the default `snail-test`), the name falls into the modern-format
branch and the parsed distro is the prefix's last hyphen-segment.  The
configured default distribution is never consulted. -/
theorem C1_legacy_parse :
    (∀ pcs vcs ncs : List Char, ('-' : Char) ∉ pcs →
      vcs ≠ [] → (∀ c ∈ vcs, c.isDigit = true) →
      ncs ≠ [] → (∀ c ∈ ncs, c.isDigit = true) →
      sortKeyH (String.mk (pcs ++ '-' :: (vcs ++ '-' :: ncs))) =
        ("fedora", (digitsVal vcs : Int), (digitsVal ncs : Int))) ∧
    (∀ pcs qcs vcs ncs : List Char, ('-' : Char) ∉ qcs → ('-' : Char) ∉ vcs →
      ncs ≠ [] → (∀ c ∈ ncs, c.isDigit = true) →
      sortKeyH (String.mk ((pcs ++ '-' :: qcs) ++ '-' :: (vcs ++ '-' :: ncs))) =
        (String.mk qcs, pyIntOr0 vcs, (digitsVal ncs : Int))) := by
  constructor
  · intro pcs vcs ncs hp hvne hvdig hnne hndig
    exact sortKeyH_legacy _ pcs vcs ncs rfl hp hvne hvdig hnne hndig
  · intro pcs qcs vcs ncs hq hv hnne hndig
    apply sortKeyH_modern _ pcs qcs vcs ncs ?_ hq hv hnne hndig
    show (pcs ++ '-' :: qcs) ++ '-' :: (vcs ++ '-' :: ncs) =
      pcs ++ '-' :: (qcs ++ '-' :: (vcs ++ '-' :: ncs))
    simp

/-- C1 witness: both parts of the amended parse law evaluated at
`snail-42-7` (hyphen-free prefix, legacy branch, distro `fedora`) and at
`snail-test-42-7` (hyphenated prefix, modern branch, distro `test`). -/
theorem C1_legacy_parse_witness :
    sortKeyH (String.mk ("snail".data ++ '-' :: ("42".data ++ '-' :: "7".data))) =
      ("fedora", (digitsVal "42".data : Int), (digitsVal "7".data : Int)) ∧
    sortKeyH (String.mk (("snail".data ++ '-' :: "test".data) ++
        '-' :: ("42".data ++ '-' :: "7".data))) =
      (String.mk "test".data, pyIntOr0 "42".data, (digitsVal "7".data : Int)) :=
  ⟨C1_legacy_parse.1 "snail".data "42".data "7".data (by decide) (by decide) (by decide)
      (by decide) (by decide),
   C1_legacy_parse.2 "snail".data "test".data "42".data "7".data (by decide) (by decide)
      (by decide) (by decide)⟩

/-- C2 counterexample: the fleet sort gives the dotted version `"24.04"`
the key 0 (the `int()` fallback), not `24*100+4 = 2404` as the claim's
version-key rule states. -/
theorem C2_counterexample :
    (sortKeyH "snail-test-ubuntu-24.04-1").2.1 = 0 ∧
    claimedVersionKey "24.04" = 2404 ∧
    ¬ ((sortKeyH "snail-test-ubuntu-24.04-1").2.1 = claimedVersionKey "24.04") := by
  refine ⟨by decide, by decide, by decide⟩

/-- C2 amended: the version key used by the fleet sort is `int(version)`
when the version segment parses as an integer and 0 otherwise (dotted
versions get 0); the `major*100+minor` rule for dotted numeric versions
exists only in `list-versions`' `ubuntu_sort_key`, which is not part of
the fleet sort. -/
theorem C2_version_key :
    (∀ pcs d vcs ncs : List Char, ('-' : Char) ∉ d → ('-' : Char) ∉ vcs →
      ncs ≠ [] → (∀ c ∈ ncs, c.isDigit = true) →
      (sortKeyH (String.mk (pcs ++ '-' :: (d ++ '-' :: (vcs ++ '-' :: ncs))))).2.1 =
        pyIntOr0 vcs) ∧
    (∀ acs bcs : List Char, acs ≠ [] → (∀ c ∈ acs, c.isDigit = true) →
      bcs ≠ [] → (∀ c ∈ bcs, c.isDigit = true) →
      ubuntuSortKey (String.mk (acs ++ '.' :: bcs)) =
        (digitsVal acs : Int) * 100 + (digitsVal bcs : Int)) := by
  constructor
  · intro pcs d vcs ncs hd hv hnne hndig
    rw [sortKeyH_modern _ pcs d vcs ncs rfl hd hv hnne hndig]
  · intro acs bcs hane hadig hbne hbdig
    have had : ('.' : Char) ∉ acs := fun hm => absurd (hadig '.' hm) (by decide)
    have hbd : ('.' : Char) ∉ bcs := fun hm => absurd (hbdig '.' hm) (by decide)
    unfold ubuntuSortKey
    have hdata : (String.mk (acs ++ '.' :: bcs)).data = acs ++ '.' :: bcs := rfl
    rw [hdata]
    have hcont : (acs ++ '.' :: bcs).contains '.' = true :=
      List.elem_eq_true_of_mem (by simp)
    rw [if_pos hcont, splitCh_append '.' acs bcs, splitCh_of_not_mem '.' acs had,
      splitCh_of_not_mem '.' bcs hbd]
    simp only [List.singleton_append]
    rw [if_pos (by rw [pyIsDigitStr_of hane hadig, pyIsDigitStr_of hbne hbdig]; rfl),
      pyInt_all_digits hane hadig, pyInt_all_digits hbne hbdig]
    rfl

/-- C2 witness: the amended key rule evaluated at the modern name
`snail-test-ubuntu-24.04-1` (fleet key 0) and at the ubuntu version
`24.04` (`ubuntu_sort_key` 2404). -/
theorem C2_version_key_witness :
    (sortKeyH (String.mk ("snail-test".data ++
        '-' :: ("ubuntu".data ++ '-' :: ("24.04".data ++ '-' :: "1".data))))).2.1 =
      pyIntOr0 "24.04".data ∧
    ubuntuSortKey (String.mk ("24".data ++ '.' :: "04".data)) =
      (digitsVal "24".data : Int) * 100 + (digitsVal "04".data : Int) :=
  ⟨C2_version_key.1 "snail-test".data "ubuntu".data "24.04".data "1".data (by decide)
      (by decide) (by decide) (by decide),
   C2_version_key.2 "24".data "04".data (by decide) (by decide) (by decide) (by decide)⟩

/-- C6 counterexample: formatting the identities `(ubuntu, "24.04", 1)`
and `(ubuntu, "10.99", 1)` yields names whose parses are identical (both
collapse the version to key 0), so `parse ∘ format` cannot be the
identity on identities: the version string is lost. -/
theorem C6_counterexample :
    sortKeyH (fmtName "snail-test" "ubuntu" "24.04" "1") =
      sortKeyH (fmtName "snail-test" "ubuntu" "10.99" "1") ∧
    ¬ (("24.04" : String) = "10.99") ∧
    (sortKeyH (fmtName "snail-test" "ubuntu" "24.04" "1")).2.1 = 0 := by
  refine ⟨by decide, by decide, by decide⟩

/-- C6 amended: for a hyphen-free distro and version and a decimal
instance numeral, re-parsing a formatted name recovers the distro and the
instance exactly, while the version survives only as its numeric key —
`int(version)` when the string is numeric, 0 otherwise. -/
theorem C6_round_trip (pfx distro version instStr : String)
    (hd : ('-' : Char) ∉ distro.data) (hv : ('-' : Char) ∉ version.data)
    (hne : instStr.data ≠ []) (hdig : ∀ c ∈ instStr.data, c.isDigit = true) :
    sortKeyH (fmtName pfx distro version instStr) =
      (distro, pyIntOr0 version.data, (digitsVal instStr.data : Int)) := by
  have hdash : ("-" : String).data = ['-'] := rfl
  have hdata : (fmtName pfx distro version instStr).data =
      pfx.data ++ '-' :: (distro.data ++ '-' :: (version.data ++ '-' :: instStr.data)) := by
    unfold fmtName
    simp [String.data_append, hdash]
  rw [sortKeyH_modern _ pfx.data distro.data version.data instStr.data hdata hd hv hne hdig,
    strDataEq (rfl : (String.mk distro.data).data = distro.data)]

/-- C6 witness: the amended round trip evaluated at the identity
`(ubuntu, "24.04", 7)` under the default prefix. -/
theorem C6_round_trip_witness :
    sortKeyH (fmtName "snail-test" "ubuntu" "24.04" "7") =
      ("ubuntu", pyIntOr0 "24.04".data, (digitsVal "7".data : Int)) :=
  C6_round_trip "snail-test" "ubuntu" "24.04" "7" (by decide) (by decide) (by decide)
    (by decide)

/-- C3 counterexample: the two discovery entry points do not share one
sort rule: on the same hypervisor listing, the harness order (by distro
first) and the inventory script's order (by version first, ignoring
distro) disagree. -/
theorem C3_counterexample :
    getVmListH "snail-test" discWorld =
      ["snail-test-fedora-12-1", "snail-test-debian-42-1"] ∧
    invGetVmList discWorld =
      ["snail-test-debian-42-1", "snail-test-fedora-12-1"] ∧
    ¬ (getVmListH "snail-test" discWorld = invGetVmList discWorld) := by
  refine ⟨by decide, by decide, by decide⟩

/-- C3 amended: each discovery entry point returns the surviving names
ordered descending by its own key — the harness by `(distro,
version_num, number)`, the inventory script by `(version, number)` with
no distro — as a permutation of the filtered lines; in both, names whose
version or instance segments fail to parse receive the bottom key and
therefore sort to the lowest positions.  No single sort rule governs
both entry points. -/
theorem C3_sorted_per_entry_point (pfx : String) (w : Hyp) :
    (getVmListH pfx w).Pairwise
      (fun a b => keyLe (sortKeyH b) (sortKeyH a) = true) ∧
    (w.listOut.2 = 0 → (getVmListH pfx w).Perm (harnessSurvivors pfx w)) ∧
    (∀ s : String, keyLe ("", 0, 0) (sortKeyH s) = true) ∧
    (invGetVmList w).Pairwise
      (fun a b => invKeyLe (invSortKey b) (invSortKey a) = true) ∧
    ((invRun w.listOut).2 = 0 → (invGetVmList w).Perm (invSurvivors w)) ∧
    (∀ s : String, invKeyLe (0, 0) (invSortKey s) = true) := by
  refine ⟨?_, ?_, keyLe_bottom_sortKeyH, ?_, ?_, invKeyLe_bottom_invSortKey⟩
  · unfold getVmListH
    by_cases h : w.listOut.2 ≠ 0
    · rw [if_pos h]
      exact List.Pairwise.nil
    · rw [if_neg h]
      exact stableSort_pairwise (fun a b => keyLe (sortKeyH b) (sortKeyH a))
        (fun a b c hab hbc => keyLe_trans hbc hab)
        (fun a b => keyLe_total (sortKeyH b) (sortKeyH a)) _
  · intro h0
    unfold getVmListH
    rw [if_neg (fun hne => hne h0)]
    exact stableSort_perm _ _
  · unfold invGetVmList
    by_cases h : (invRun w.listOut).2 ≠ 0
    · rw [if_pos h]
      exact List.Pairwise.nil
    · rw [if_neg h]
      exact stableSort_pairwise (fun a b => invKeyLe (invSortKey b) (invSortKey a))
        (fun a b c hab hbc => invKeyLe_trans hbc hab)
        (fun a b => invKeyLe_total (invSortKey b) (invSortKey a)) _
  · intro h0
    unfold invGetVmList
    rw [if_neg (fun hne => hne h0)]
    exact stableSort_perm _ _

/-- C3 witness: the per-entry-point permutation parts of the amended
theorem applied to the concrete listing on which the two orders differ. -/
theorem C3_sorted_per_entry_point_witness :
    discWorld.listOut.2 = 0 ∧
    (getVmListH "snail-test" discWorld).Perm (harnessSurvivors "snail-test" discWorld) ∧
    (invGetVmList discWorld).Perm (invSurvivors discWorld) :=
  ⟨by decide,
   (C3_sorted_per_entry_point "snail-test" discWorld).2.1 (by decide),
   (C3_sorted_per_entry_point "snail-test" discWorld).2.2.2.2.1 (by decide)⟩
